import Mathlib

/-!
Verification of `rpi_rootfs.py`, a tool that repairs a relocated Raspberry Pi
root filesystem: it rewrites absolute symbolic links to relative ones,
creates pkg-config discovery symlinks, and patches linker-script files.

Python strings are embedded as `List Char`; the POSIX path functions used by
the source (`posixpath.normpath`, `posixpath.join`, `posixpath.abspath`,
`posixpath.relpath`) are translated component by component from CPython's
`posixpath` module, since the behaviour of `relativelinks_handlelink`
depends on them.
-/

namespace RpiRootfs

/-- A Python string: a sequence of characters. -/
abbrev Str := List Char

/-- `os.pardir` = `".."`. -/
def pardir : Str := ['.', '.']

/-- `os.curdir` = `"."`. -/
def curdir : Str := ['.']

/-- Python `s.split('/')`: split at every `'/'`, keeping empty pieces. -/
def splitSlash : Str → List Str
  | [] => [[]]
  | c :: rest =>
    if c = '/' then [] :: splitSlash rest
    else
      match splitSlash rest with
      | [] => [[c]]
      | p :: ps => (c :: p) :: ps

/-- Python `sep.join(parts)`. -/
def joinWith (sep : Str) : List Str → Str
  | [] => []
  | [x] => x
  | x :: y :: xs => x ++ sep ++ joinWith sep (y :: xs)

/-- One iteration of the component loop inside CPython `posixpath.normpath`:
```
for comp in comps:
    if comp in ('', '.'): continue
    if (comp != '..' or (not initial_slashes and not new_comps) or
         (new_comps and new_comps[-1] == '..')):
        new_comps.append(comp)
    elif new_comps:
        new_comps.pop()
```
-/
def normStep (initial_slashes : Nat) (acc : List Str) (comp : Str) : List Str :=
  if comp = [] ∨ comp = curdir then acc
  else if comp ≠ pardir ∨ (initial_slashes = 0 ∧ acc = []) ∨
      (acc ≠ [] ∧ acc.getLast? = some pardir) then
    acc ++ [comp]
  else if acc ≠ [] then acc.dropLast
  else acc

/-- The `new_comps` list computed by `posixpath.normpath`. -/
def normComps (initial_slashes : Nat) (comps : List Str) : List Str :=
  comps.foldl (normStep initial_slashes) []

/-- The `initial_slashes` count of `posixpath.normpath` (POSIX keeps a
leading `//`, but not `///` or more). -/
def initialSlashCount (p : Str) : Nat :=
  if ['/'] <+: p then
    if ['/', '/'] <+: p ∧ ¬ (['/', '/', '/'] <+: p) then 2 else 1
  else 0

/-- CPython `posixpath.normpath`. -/
def normpath (p : Str) : Str :=
  if p = [] then curdir
  else
    let n := initialSlashCount p
    let comps := normComps n (splitSlash p)
    let out := List.replicate n '/' ++ joinWith ['/'] comps
    if out = [] then curdir else out

/-- CPython `posixpath.join` for two arguments. -/
def posixJoin (a b : Str) : Str :=
  if ['/'] <+: b then b
  else if a = [] ∨ a.getLast? = some '/' then a ++ b
  else a ++ '/' :: b

/-- CPython `posixpath.abspath`, with the process working directory made an
explicit parameter. -/
def abspath (cwd p : Str) : Str :=
  if ['/'] <+: p then normpath p else normpath (posixJoin cwd p)

/-- Length of the longest common prefix of two component lists; the value of
`len(genericpath.commonprefix([a, b]))` for two lists. -/
def commonPrefixLen : List Str → List Str → Nat
  | a :: as, b :: bs => if a = b then commonPrefixLen as bs + 1 else 0
  | _, _ => 0

/-- The list `[x for x in abspath(q).split(sep) if x]` from
`posixpath.relpath`. -/
def absComps (cwd q : Str) : List Str :=
  (splitSlash (abspath cwd q)).filter (fun x => x ≠ [])

/-- CPython `posixpath.relpath path start` (its callers in this program never
pass an empty `path`, so the `ValueError` branch is not modelled). -/
def relpath (cwd path start : Str) : Str :=
  let start_list := absComps cwd start
  let path_list := absComps cwd path
  let i := commonPrefixLen start_list path_list
  let rel_list := List.replicate (start_list.length - i) pardir ++ path_list.drop i
  if rel_list = [] then curdir else joinWith ['/'] rel_list

/-! ## LinkFixer: `relativelinks_handlelink` and `process_relativelinks` -/

/-- Outcome of one call to `relativelinks_handlelink` on a link whose current
target is `link`:
* `indexError`  — `link[0]` raised `IndexError` (empty target string);
* `noChange`    — the guard `link[0] != "/" or link.startswith(topdir)` fired
  and the function returned without touching the filesystem;
* `rewritten t` — the link was unlinked and recreated with target `t`. -/
inductive HandleResult where
  | indexError
  | noChange
  | rewritten (newTarget : Str)
deriving DecidableEq

/-- `relativelinks_handlelink(topdir, filep, subdir)` with the target read by
`os.readlink(filep)` passed explicitly as `link`:
```
link = os.readlink(filep)
if link[0] != "/" or link.startswith(topdir):
    return
os.unlink(filep)
os.symlink(os.path.relpath(topdir + link, subdir), filep)
```
-/
def relativelinks_handlelink (cwd topdir subdir link : Str) : HandleResult :=
  match link with
  | [] => .indexError
  | c :: rest =>
    if c ≠ '/' ∨ topdir <+: (c :: rest) then .noChange
    else .rewritten (relpath cwd (topdir ++ c :: rest) subdir)

/-- The target of a symlink after one visit by `relativelinks_handlelink`
(unchanged unless the rewrite branch ran; callers guarantee `link ≠ []`,
for an empty target the Python call would raise instead). -/
def applyOnce (cwd topdir subdir link : Str) : Str :=
  match relativelinks_handlelink cwd topdir subdir link with
  | .rewritten t => t
  | _ => link

/-- A symbolic link found by the `os.walk` traversal: the directory that
contains it, its file name, and its current target string. -/
structure Entry where
  subdir : Str
  name : Str
  target : Str
deriving DecidableEq

/-- `any(re.findall(EXCLUDE_PATH_PATTERN, subdir, re.IGNORECASE))` with
`EXCLUDE_PATH_PATTERN = r'/proc/*|/dev/*'`: the regex finds a (necessarily
nonempty) match exactly when `subdir` contains `/proc` or `/dev` as a
substring, ignoring case. -/
def excludedDir (subdir : Str) : Prop :=
  ['/', 'p', 'r', 'o', 'c'] <:+: subdir.map Char.toLower ∨
    ['/', 'd', 'e', 'v'] <:+: subdir.map Char.toLower

instance (subdir : Str) : Decidable (excludedDir subdir) := by
  unfold excludedDir; infer_instance

/-- `process_relativelinks(path)` on a tree whose symlinks are `fs`: every
directory whose path matches the exclusion pattern is skipped (`continue`),
every symlink in any other directory is passed to
`relativelinks_handlelink`.  (`os.walk` with `continue` still descends into
subdirectories of an excluded directory, but their paths also contain the
excluded substring, so per-entry filtering is equivalent.) -/
def process_relativelinks (cwd path : Str) (fs : List Entry) : List Entry :=
  let topdir := abspath cwd path
  fs.map fun e =>
    if excludedDir e.subdir then e
    else { e with target := applyOnce cwd topdir e.subdir e.target }

/-! ## PkgConfigLinker: `symlink_force` and `process_pkgconfig_link` -/

/-- Errors `os.symlink` can raise: `EEXIST`, or anything else (permission
denied, not-a-directory, ...). -/
inductive OSErr where
  | eexist
  | other
deriving DecidableEq

/-- A model of the directory entries `symlink_force` touches: an association
list from path to symlink target (a plain pre-existing file is an entry,
too), plus the set of paths whose creation fails for a reason other than
`EEXIST` (e.g. the parent directory is not writable, so path resolution
fails before the existence of the entry is even considered). -/
structure FS where
  entries : List (Str × Str)
  denied : List Str
deriving DecidableEq

def lookupEntry : List (Str × Str) → Str → Option Str
  | [], _ => none
  | (q, t) :: rest, p => if q = p then some t else lookupEntry rest p

def FS.lookup (fs : FS) (p : Str) : Option Str := lookupEntry fs.entries p

def removeEntry : List (Str × Str) → Str → List (Str × Str)
  | [], _ => []
  | (q, t) :: rest, p =>
    if q = p then removeEntry rest p else (q, t) :: removeEntry rest p

/-- `os.symlink(target, link_name)`. -/
def os_symlink (fs : FS) (target link_name : Str) : Except OSErr FS :=
  if link_name ∈ fs.denied then .error .other
  else if (lookupEntry fs.entries link_name).isSome then .error .eexist
  else .ok { fs with entries := (link_name, target) :: fs.entries }

/-- `os.remove(link_name)`. -/
def os_remove (fs : FS) (p : Str) : FS :=
  { fs with entries := removeEntry fs.entries p }

/-- `symlink_force(target, link_name)`:
```
try:
    os.symlink(target, link_name)
except OSError as e:
    if e.errno == errno.EEXIST:
        os.remove(link_name)
        os.symlink(target, link_name)
    else:
        print(f"Error: ...")
```
The returned `Bool` records whether the error message was printed; an
`.error` result models an exception escaping the function (only the second,
un-guarded `os.symlink` could do that). -/
def symlink_force (fs : FS) (target link_name : Str) : Except OSErr (FS × Bool) :=
  match os_symlink fs target link_name with
  | .ok fs2 => .ok (fs2, false)
  | .error e =>
    match e with
    | .eexist =>
      match os_symlink (os_remove fs link_name) target link_name with
      | .ok fs2 => .ok (fs2, false)
      | .error e2 => .error e2
    | .other => .ok (fs, true)

/-- `target_packageconfig = "../../lib/arm-linux-gnueabihf/pkgconfig/" + f`. -/
def pkg_target (f : Str) : Str :=
  "../../lib/arm-linux-gnueabihf/pkgconfig/".data ++ f

/-- `link_packageconfig = os.path.abspath(path) + "/usr/share/pkgconfig/" + f`. -/
def pkg_linkname (cwd path f : Str) : Str :=
  abspath cwd path ++ "/usr/share/pkgconfig/".data ++ f

/-- The `os.walk` loop body of `process_pkgconfig_link`, over the walked
`(subdir, file-basename)` pairs found under the pkgconfig directory.  Only
the basename `f` is used to build both the link target and the link name;
an exception escaping `symlink_force` would abort the remaining files. -/
def process_pkgconfig_files (cwd path : Str) (fs : FS) :
    List (Str × Str) → Except OSErr FS
  | [] => .ok fs
  | (_subdir, f) :: rest =>
    match symlink_force fs (pkg_target f) (pkg_linkname cwd path f) with
    | .ok (fs2, _) => process_pkgconfig_files cwd path fs2 rest
    | .error e => .error e

/-! ## LdScriptPatcher: `inplace_change` and `fix_process_ld_scripts` -/

/-- Python `s.replace(old, new)` for a nonempty `old`: scan left to right,
replacing each non-overlapping occurrence.  Recursion is over a fuel that
starts at `s.length` and drops by at least one character per step.  (The
program only ever calls this with the nonempty anchor `"GROUP ("`; Python's
special behaviour for an empty `old` is therefore not modelled.) -/
def pyReplaceGo (old new : Str) : Nat → Str → Str
  | _, [] => []
  | 0, s => s
  | fuel + 1, c :: rest =>
    if old ≠ [] ∧ old <+: (c :: rest) then
      new ++ pyReplaceGo old new fuel (List.drop old.length (c :: rest))
    else
      c :: pyReplaceGo old new fuel rest

def pyReplace (s old new : Str) : Str := pyReplaceGo old new s.length s

/-- Cut `s` at every non-overlapping occurrence of `sep` (scanning left to
right, like `pyReplace`); `pyReplace` equals joining these pieces with the
replacement string.  This is the specification-side description of
"rewriting an occurrence". -/
def splitOnSeqGo (sep : Str) : Nat → Str → List Str
  | _, [] => [[]]
  | 0, s => [s]
  | fuel + 1, c :: rest =>
    if sep ≠ [] ∧ sep <+: (c :: rest) then
      [] :: splitOnSeqGo sep fuel (List.drop sep.length (c :: rest))
    else
      match splitOnSeqGo sep fuel rest with
      | [] => [[c]]
      | p :: ps => (c :: p) :: ps

def splitOnSeq (sep s : Str) : List Str := splitOnSeqGo sep s.length s

/-- The anchor token searched for in the linker scripts. -/
def GROUP_anchor : Str := "GROUP (".data

/-- `new_content = f"{os.path.abspath(path)}/usr/lib/arm-linux-gnueabihf/"`. -/
def ld_library_path (cwd path : Str) : Str :=
  abspath cwd path ++ "/usr/lib/arm-linux-gnueabihf/".data

/-- `inplace_change(filename, old, new)` as a content transformation: if
`old not in s` the file is reported and left alone, otherwise the whole
content is rewritten to `s.replace(old, new)`. -/
def inplace_change (content old_string new_string : Str) : Str :=
  if ¬ (old_string <:+: content) then content
  else pyReplace content old_string new_string

/-- `fix_process_ld_scripts(path, filename)` as a transformation of the
content of an existing linker-script file (a missing file is reported and
skipped, leaving every file unchanged). -/
def fix_process_ld_scripts (cwd path content : Str) : Str :=
  inplace_change content GROUP_anchor (GROUP_anchor ++ ld_library_path cwd path)

/-! ## SyncOrchestrator: `rsync_get_include_option` -/

def lbrace : Char := Char.ofNat 123
def rbrace : Char := Char.ofNat 125
def squote : Char := Char.ofNat 39

/-- `RSYNC_INCLUDE = ['etc/', 'lib/', 'usr/', 'opt/vc']`. -/
def RSYNC_INCLUDE : List Str :=
  ["etc/".data, "lib/".data, "usr/".data, "opt/vc".data]

/-- `rsync_get_include_option(user)`, i.e. the Python expression
`f"{user}:/\x7b\x7b','.join(RSYNC_INCLUDE)\x7d\x7d"`.  The doubled braces
are f-string escapes for literal brace characters, so everything between
them — the join expression itself — is literal text, not an interpolation:
the function returns `user` followed by the 26 characters
`:/\x7b','.join(RSYNC_INCLUDE)\x7d`. -/
def rsync_get_include_option (user : Str) : Str :=
  user ++ ":/".data ++ [lbrace, squote, ',', squote] ++
    ".join(RSYNC_INCLUDE)".data ++ [rbrace]

/-- What the specification says the option is: the user/host prefix followed
by the brace-expansion list of the four include directories,
`user + ":/\x7betc/,lib/,usr/,opt/vc\x7d"`. -/
def rsync_include_option_claimed (user : Str) : Str :=
  user ++ ":/".data ++ [lbrace] ++ joinWith [','] RSYNC_INCLUDE ++ [rbrace]

example : relativelinks_handlelink "/".data "/work/sysroot".data
    "/work/sysroot/usr/bin".data "/lib/foo.so".data
    = .rewritten "../../lib/foo.so".data := by decide
example : relativelinks_handlelink "/".data "/work/sysroot".data
    "/work/sysroot/usr/bin".data "../x".data = .noChange := by decide
example : relativelinks_handlelink "/".data "/work/sysroot".data
    "/work/sysroot/usr/bin".data "".data = .indexError := by decide
example : pyReplace "aXbXc".data "X".data "YY".data = "aYYbYYc".data := by decide
example : fix_process_ld_scripts "/".data "/r".data "GROUP ( x )".data
    = "GROUP (/r/usr/lib/arm-linux-gnueabihf/ x )".data := by decide
example : splitOnSeq "X".data "aXbXc".data = ["a".data, "b".data, "c".data] := by
  decide

example : normpath "/a/b/../c//./d".data = "/a/c/d".data := by decide
example : normpath "a/..".data = curdir := by decide
example : normpath "//a".data = "//a".data := by decide
example : normpath "///a".data = "/a".data := by decide
example : relpath "/".data "/work/sysroot/lib/foo.so".data "/work/sysroot/usr/bin".data
    = "../../lib/foo.so".data := by decide
example : relpath "/".data "/a/b".data "/a/b".data = curdir := by decide
example : posixJoin "/work/sysroot/usr/bin".data "../../lib/foo.so".data
    = "/work/sysroot/usr/bin/../../lib/foo.so".data := by decide
example : normpath "/work/sysroot/usr/bin/../../lib/foo.so".data
    = "/work/sysroot/lib/foo.so".data := by decide

/-! ## Lemmas about the path model -/

theorem splitSlash_ne_nil (s : Str) : splitSlash s ≠ [] := by
  cases s with
  | nil => simp [splitSlash]
  | cons c rest =>
    unfold splitSlash
    split
    · simp
    · cases h : splitSlash rest <;> simp

theorem splitSlash_cons_slash (rest : Str) :
    splitSlash ('/' :: rest) = [] :: splitSlash rest := rfl

theorem splitSlash_cons_ne {c : Char} (rest : Str) (hc : c ≠ '/') :
    splitSlash (c :: rest)
      = match splitSlash rest with
        | [] => [[c]]
        | p :: ps => (c :: p) :: ps := by
  conv_lhs => unfold splitSlash
  rw [if_neg hc]

theorem splitSlash_append (a b : Str) :
    splitSlash (a ++ '/' :: b) = splitSlash a ++ splitSlash b := by
  induction a with
  | nil => simp [splitSlash]
  | cons c a ih =>
    by_cases hc : c = '/'
    · subst hc
      rw [List.cons_append, splitSlash_cons_slash, splitSlash_cons_slash, ih,
        List.cons_append]
    · rw [List.cons_append, splitSlash_cons_ne _ hc, splitSlash_cons_ne a hc, ih]
      cases h : splitSlash a with
      | nil => exact absurd h (splitSlash_ne_nil a)
      | cons p ps => simp [h]

theorem not_slash_of_mem_splitSlash : ∀ (s : Str), ∀ x ∈ splitSlash s, '/' ∉ x := by
  intro s
  induction s with
  | nil =>
    intro x hx
    simp [splitSlash] at hx
    subst hx; simp
  | cons c rest ih =>
    intro x hx
    by_cases hc : c = '/'
    · subst hc
      rw [splitSlash_cons_slash] at hx
      rcases List.mem_cons.mp hx with h | h
      · subst h; simp
      · exact ih x h
    · rw [splitSlash_cons_ne rest hc] at hx
      cases h : splitSlash rest with
      | nil => exact absurd h (splitSlash_ne_nil rest)
      | cons p ps =>
        rw [h] at hx
        have hp : p ∈ splitSlash rest := by rw [h]; exact List.mem_cons_self p ps
        rcases List.mem_cons.mp hx with hx1 | hx1
        · subst hx1
          intro hmem
          rcases List.mem_cons.mp hmem with h1 | h1
          · exact hc h1.symm
          · exact ih p hp h1
        · have hx2 : x ∈ splitSlash rest := by
            rw [h]; exact List.mem_cons_of_mem p hx1
          exact ih x hx2

theorem splitSlash_of_no_slash {x : Str} (hx : '/' ∉ x) : splitSlash x = [x] := by
  induction x with
  | nil => rfl
  | cons c rest ih =>
    have hc : c ≠ '/' := fun h => hx (h ▸ List.mem_cons_self c rest)
    have hrest : '/' ∉ rest := fun h => hx (List.mem_cons_of_mem c h)
    unfold splitSlash
    rw [if_neg hc, ih hrest]

theorem joinWith_cons_cons (sep : Str) (c : Char) (p : Str) (ps : List Str) :
    joinWith sep ((c :: p) :: ps) = c :: joinWith sep (p :: ps) := by
  cases ps with
  | nil => rfl
  | cons q qs => simp [joinWith]

theorem joinWith_cons_exists (sep x : Str) (xs : List Str) :
    ∃ r, joinWith sep (x :: xs) = x ++ r := by
  cases xs with
  | nil => exact ⟨[], by simp [joinWith]⟩
  | cons y ys => exact ⟨sep ++ joinWith sep (y :: ys), by simp [joinWith]⟩

theorem splitSlash_joinWith :
    ∀ (parts : List Str), parts ≠ [] → (∀ x ∈ parts, '/' ∉ x) →
      splitSlash (joinWith ['/'] parts) = parts
  | [], h, _ => absurd rfl h
  | [x], _, hx => by
    simp only [joinWith]
    exact splitSlash_of_no_slash (hx x (List.mem_cons_self x []))
  | x :: y :: ys, _, hx => by
    have hx1 : '/' ∉ x := hx x (by simp)
    have hys : ∀ z ∈ y :: ys, '/' ∉ z := fun z hz => hx z (List.mem_cons_of_mem x hz)
    have : joinWith ['/'] (x :: y :: ys) = x ++ '/' :: joinWith ['/'] (y :: ys) := by
      simp [joinWith]
    rw [this, splitSlash_append, splitSlash_of_no_slash hx1,
      splitSlash_joinWith (y :: ys) (by simp) hys]
    simp

theorem mem_of_getLastQ : ∀ {l : List Str} {a : Str}, l.getLast? = some a → a ∈ l
  | [], _, h => by simp at h
  | [x], a, h => by
    simp [List.getLast?] at h
    simp [h]
  | x :: y :: t, a, h => by
    rw [List.getLast?_cons_cons] at h
    exact List.mem_cons_of_mem x (mem_of_getLastQ h)

theorem normStep_skip (n : Nat) (acc : List Str) {comp : Str}
    (h : comp = [] ∨ comp = curdir) : normStep n acc comp = acc := by
  unfold normStep
  rw [if_pos h]

theorem normStep_keep (n : Nat) (acc : List Str) {comp : Str} (h1 : comp ≠ [])
    (h2 : comp ≠ curdir) (h3 : comp ≠ pardir) :
    normStep n acc comp = acc ++ [comp] := by
  unfold normStep
  rw [if_neg (by push_neg; exact ⟨h1, h2⟩), if_pos (Or.inl h3)]

theorem normStep_pop {n : Nat} {acc : List Str} (hn : n ≠ 0) (hacc : acc ≠ [])
    (hpd : ∀ x ∈ acc, x ≠ pardir) : normStep n acc pardir = acc.dropLast := by
  unfold normStep
  rw [if_neg (by decide), if_neg, if_pos hacc]
  intro h
  rcases h with h | h | h
  · exact h rfl
  · exact hn h.1
  · exact hpd pardir (mem_of_getLastQ h.2) rfl

theorem normStep_pop_nil {n : Nat} (hn : n ≠ 0) : normStep n [] pardir = [] := by
  unfold normStep
  rw [if_neg (by decide), if_neg, if_neg (by simp)]
  intro h
  rcases h with h | h | h
  · exact h rfl
  · exact hn h.1
  · exact h.1 rfl

/-- Every component produced by the `normpath` loop for a path with leading
slashes is a real component: nonempty, not `.`, not `..`; and it satisfies
any property `R` holding for the input components and the accumulator. -/
theorem normComps_invariant (R : Str → Prop) :
    ∀ (l : List Str) (n : Nat) (_hn : n ≠ 0) (acc : List Str),
      (∀ x ∈ acc, (x ≠ [] ∧ x ≠ curdir ∧ x ≠ pardir) ∧ R x) →
      (∀ x ∈ l, R x) →
      ∀ x ∈ List.foldl (normStep n) acc l,
        (x ≠ [] ∧ x ≠ curdir ∧ x ≠ pardir) ∧ R x := by
  intro l
  induction l with
  | nil => intro n hn acc hacc _ x hx; exact hacc x hx
  | cons comp l ih =>
    intro n hn acc hacc hl x hx
    rw [List.foldl_cons] at hx
    have hR : R comp := hl comp (List.mem_cons_self comp l)
    have hl2 : ∀ y ∈ l, R y := fun y hy => hl y (List.mem_cons_of_mem comp hy)
    refine ih n hn (normStep n acc comp) ?_ hl2 x hx
    by_cases h0 : comp = [] ∨ comp = curdir
    · rw [normStep_skip n acc h0]; exact hacc
    · push_neg at h0
      by_cases hpd : comp = pardir
      · subst hpd
        by_cases hnil : acc = []
        · subst hnil
          rw [normStep_pop_nil hn]
          intro y hy; simp at hy
        · rw [normStep_pop hn hnil (fun y hy => (hacc y hy).1.2.2)]
          intro y hy
          exact hacc y (List.take_subset _ _ (List.dropLast_eq_take acc ▸ hy))
      · rw [normStep_keep n acc h0.1 h0.2 hpd]
        intro y hy
        rcases List.mem_append.mp hy with hy1 | hy1
        · exact hacc y hy1
        · rw [List.mem_singleton] at hy1
          subst hy1
          exact ⟨⟨h0.1, h0.2, hpd⟩, hR⟩

/-- Folding `k` copies of `..` over a `..`-free accumulator pops its last
`k` elements (the absolute-path case of the `normpath` loop). -/
theorem foldl_replicate_pardir :
    ∀ (k : Nat) {n : Nat} (_hn : n ≠ 0) (acc : List Str),
      (∀ x ∈ acc, x ≠ pardir) → k ≤ acc.length →
      List.foldl (normStep n) acc (List.replicate k pardir)
        = acc.take (acc.length - k) := by
  intro k
  induction k with
  | zero => intro n hn acc _ _; simp
  | succ k ih =>
    intro n hn acc hpd hk
    have hacc : acc ≠ [] := by
      intro h; subst h; simp at hk
    rw [List.replicate_succ, List.foldl_cons, normStep_pop hn hacc hpd]
    have hsub : ∀ x ∈ acc.dropLast, x ≠ pardir := fun x hx =>
      hpd x (List.take_subset _ _ (List.dropLast_eq_take acc ▸ hx))
    have hk2 : k ≤ acc.dropLast.length := by
      rw [List.length_dropLast]; omega
    rw [ih hn acc.dropLast hsub hk2, List.length_dropLast,
      List.dropLast_eq_take, List.take_take]
    congr 1
    omega

/-- Folding a list of real components just appends them. -/
theorem foldl_clean_append :
    ∀ (l : List Str) (n : Nat) (acc : List Str),
      (∀ x ∈ l, x ≠ [] ∧ x ≠ curdir ∧ x ≠ pardir) →
      List.foldl (normStep n) acc l = acc ++ l := by
  intro l
  induction l with
  | nil => intro n acc _; simp
  | cons comp l ih =>
    intro n acc hl
    have h1 := hl comp (List.mem_cons_self comp l)
    rw [List.foldl_cons, normStep_keep n acc h1.1 h1.2.1 h1.2.2,
      ih n _ (fun y hy => hl y (List.mem_cons_of_mem comp hy))]
    simp

theorem commonPrefixLen_le_left :
    ∀ (a b : List Str), commonPrefixLen a b ≤ a.length
  | [], b => by cases b <;> simp [commonPrefixLen]
  | _ :: _, [] => by simp [commonPrefixLen]
  | x :: xs, y :: ys => by
    unfold commonPrefixLen
    split
    · have := commonPrefixLen_le_left xs ys
      simpa using this
    · simp

theorem commonPrefixLen_le_right :
    ∀ (a b : List Str), commonPrefixLen a b ≤ b.length
  | [], b => by cases b <;> simp [commonPrefixLen]
  | _ :: _, [] => by simp [commonPrefixLen]
  | x :: xs, y :: ys => by
    unfold commonPrefixLen
    split
    · have := commonPrefixLen_le_right xs ys
      simpa using this
    · simp

theorem take_commonPrefixLen :
    ∀ (a b : List Str), a.take (commonPrefixLen a b) = b.take (commonPrefixLen a b)
  | [], b => by cases b <;> simp [commonPrefixLen]
  | _ :: _, [] => by simp [commonPrefixLen]
  | x :: xs, y :: ys => by
    unfold commonPrefixLen
    split
    · next heq =>
      rw [List.take_succ_cons, List.take_succ_cons, heq,
        take_commonPrefixLen xs ys]
    · simp

/-- For a path with a single leading slash, `normpath` is the slash followed
by the joined normalized components. -/
theorem normpath_abs {p : Str} (h1 : ['/'] <+: p) (h2 : ¬ (['/', '/'] <+: p)) :
    normpath p = '/' :: joinWith ['/'] (normComps 1 (splitSlash p)) := by
  obtain ⟨t0, ht⟩ := h1
  have hp : p ≠ [] := by rw [← ht]; simp
  have hn : initialSlashCount p = 1 := by
    unfold initialSlashCount
    rw [if_pos ⟨t0, ht⟩, if_neg (fun hc => h2 hc.1)]
  simp only [normpath, hn, if_neg hp]
  simp [List.replicate]

/-- The component list `[x for x in abspath(q).split(sep) if x]` computed by
`relpath` equals the normalized component list of `q`, for an absolute `q`
with a single leading slash. -/
theorem absComps_eq {q : Str} (cwd : Str) (h1 : ['/'] <+: q)
    (h2 : ¬ (['/', '/'] <+: q)) :
    absComps cwd q = normComps 1 (splitSlash q) := by
  have habs : abspath cwd q = normpath q := by
    unfold abspath; rw [if_pos h1]
  have hclean := normComps_invariant (fun x => '/' ∉ x) (splitSlash q)
    1 (by decide) [] (by simp) (not_slash_of_mem_splitSlash q)
  rw [absComps, habs, normpath_abs h1 h2, splitSlash_cons_slash]
  rw [List.filter_cons_of_neg (by simp)]
  cases hN : normComps 1 (splitSlash q) with
  | nil => simp [joinWith, splitSlash]
  | cons x xs =>
    have hmem : ∀ y ∈ x :: xs, y ∈ List.foldl (normStep 1) [] (splitSlash q) := by
      intro y hy
      rw [show List.foldl (normStep 1) [] (splitSlash q)
          = normComps 1 (splitSlash q) from rfl, hN]
      exact hy
    rw [splitSlash_joinWith (x :: xs) (by simp)
      (fun y hy => (hclean y (hmem y hy)).2), List.filter_eq_self]
    intro y hy
    simpa using (hclean y (hmem y hy)).1.1

theorem single_pref_iff {a : Char} {w : Str} : [a] <+: w ↔ w.head? = some a := by
  constructor
  · rintro ⟨t, rfl⟩
    rfl
  · intro h
    cases w with
    | nil => simp at h
    | cons c t =>
      simp only [List.head?_cons, Option.some.injEq] at h
      exact ⟨t, by rw [h]; rfl⟩

theorem dslash_iff {w : Str} :
    ['/', '/'] <+: w ↔ w.head? = some '/' ∧ w.tail.head? = some '/' := by
  constructor
  · rintro ⟨t, rfl⟩
    exact ⟨rfl, rfl⟩
  · rintro ⟨h1, h2⟩
    cases w with
    | nil => simp at h1
    | cons a w1 =>
      cases w1 with
      | nil => simp at h2
      | cons b w2 =>
        simp only [List.head?_cons, Option.some.injEq, List.tail_cons] at h1 h2
        exact ⟨w2, by rw [h1, h2]; rfl⟩

/-- The relative path produced by `posixpath.relpath` is nonempty and does
not start with a slash. -/
theorem relpath_shape (cwd p s : Str) :
    relpath cwd p s ≠ [] ∧ ¬ (['/'] <+: relpath cwd p s) := by
  have key : ∀ (rl : List Str),
      (∀ x ∈ rl, x = pardir ∨ (x ≠ [] ∧ '/' ∉ x)) →
      (if rl = [] then curdir else joinWith ['/'] rl) ≠ [] ∧
        ¬ (['/'] <+: (if rl = [] then curdir else joinWith ['/'] rl)) := by
    intro rl hrl
    by_cases h : rl = []
    · rw [if_pos h]
      exact ⟨by decide, by decide⟩
    · rw [if_neg h]
      cases rl with
      | nil => exact absurd rfl h
      | cons x xs =>
        obtain ⟨r, hr⟩ := joinWith_cons_exists ['/'] x xs
        rcases hrl x (List.mem_cons_self x xs) with hx | hx
        · subst hx
          rw [hr]
          refine ⟨by simp [pardir], ?_⟩
          rw [show pardir ++ r = '.' :: ('.' :: r) from rfl, single_pref_iff]
          simp
        · obtain ⟨cx, x', rfl⟩ : ∃ cx x', x = cx :: x' := by
            cases x with
            | nil => exact absurd rfl hx.1
            | cons cx x' => exact ⟨cx, x', rfl⟩
          rw [hr]
          refine ⟨by simp, ?_⟩
          rw [List.cons_append, single_pref_iff]
          simp only [List.head?_cons, Option.some.injEq]
          intro hcx
          exact hx.2 (hcx ▸ List.mem_cons_self cx x')
  simp only [relpath]
  apply key
  intro x hx
  rcases List.mem_append.mp hx with hx1 | hx1
  · exact Or.inl (List.eq_of_mem_replicate hx1)
  · right
    have hxA : x ∈ absComps cwd p := List.mem_of_mem_drop hx1
    rw [absComps, List.mem_filter] at hxA
    exact ⟨by simpa using hxA.2, not_slash_of_mem_splitSlash _ x hxA.1⟩

/-- Joining a relative path onto an absolute directory concatenates their
component streams: the `normpath` loop over the joined path is the loop over
the directory continued over the relative components. -/
theorem normComps_posixJoin (s rel : Str) (hs1 : ['/'] <+: s)
    (hrel : ¬ (['/'] <+: rel)) :
    normComps 1 (splitSlash (posixJoin s rel))
      = List.foldl (normStep 1) (normComps 1 (splitSlash s)) (splitSlash rel) := by
  have hsne : s ≠ [] := by
    obtain ⟨t, ht⟩ := hs1; rw [← ht]; simp
  unfold posixJoin
  rw [if_neg hrel]
  by_cases hend : s = [] ∨ s.getLast? = some '/'
  · rw [if_pos hend]
    rcases hend with h | h
    · exact absurd h hsne
    · have hlast : s.getLast hsne = '/' := by
        have h2 := List.getLast?_eq_getLast s hsne
        rw [h] at h2
        exact (Option.some.inj h2).symm
      have hdc : s.dropLast ++ ['/'] = s := by
        conv_rhs => rw [← List.dropLast_concat_getLast hsne]
        rw [hlast]
      have hsr : s ++ rel = s.dropLast ++ '/' :: rel := by
        conv_lhs => rw [← hdc]
        rw [List.append_assoc]
        rfl
      have hss : splitSlash s = splitSlash s.dropLast ++ [[]] := by
        conv_lhs => rw [← hdc]
        rw [show (['/'] : Str) = '/' :: [] from rfl, splitSlash_append]
        rfl
      rw [hsr, splitSlash_append]
      show List.foldl (normStep 1) [] _ = _
      rw [List.foldl_append]
      congr 1
      rw [hss]
      show _ = List.foldl (normStep 1) [] (splitSlash s.dropLast ++ [[]])
      rw [List.foldl_append, List.foldl_cons, List.foldl_nil,
        normStep_skip 1 _ (Or.inl rfl)]
  · rw [if_neg hend]
    rw [splitSlash_append]
    show List.foldl (normStep 1) [] _ = _
    rw [List.foldl_append]
    rfl

/-- Joining a nonempty, non-absolute relative path onto an absolute directory
with a single leading slash yields a path with a single leading slash. -/
theorem posixJoin_heads (s rel : Str) (hs1 : ['/'] <+: s)
    (hs2 : ¬ (['/', '/'] <+: s)) (_hrelne : rel ≠ []) (hrel : ¬ (['/'] <+: rel)) :
    ['/'] <+: posixJoin s rel ∧ ¬ (['/', '/'] <+: posixJoin s rel) := by
  obtain ⟨s1, hs⟩ := hs1
  have hsC : s = '/' :: s1 := hs.symm
  have hrelhead : rel.head? ≠ some '/' := fun hh => hrel (single_pref_iff.mpr hh)
  have hs1head : s1.head? ≠ some '/' := by
    intro hh
    exact hs2 (dslash_iff.mpr ⟨by rw [hsC]; rfl, by rw [hsC]; exact hh⟩)
  unfold posixJoin
  rw [if_neg hrel]
  by_cases hend : s = [] ∨ s.getLast? = some '/'
  · rw [if_pos hend]
    constructor
    · exact ⟨s1 ++ rel, by rw [hsC]; rfl⟩
    · intro hd
      obtain ⟨hd1, hd2⟩ := dslash_iff.mp hd
      rw [hsC] at hd2
      simp only [List.cons_append, List.tail_cons, List.head?_append] at hd2
      cases hs1h : s1.head? with
      | some c =>
        rw [hs1h] at hd2
        simp only [Option.or_some] at hd2
        exact hs1head (hs1h.trans hd2)
      | none =>
        rw [hs1h] at hd2
        simp only [Option.none_or] at hd2
        exact hrelhead hd2
  · rw [if_neg hend]
    push_neg at hend
    have hs1ne : s1 ≠ [] := by
      intro h
      apply hend.2
      rw [hsC, h]
      rfl
    constructor
    · exact ⟨s1 ++ '/' :: rel, by rw [hsC]; rfl⟩
    · intro hd
      obtain ⟨hd1, hd2⟩ := dslash_iff.mp hd
      rw [hsC] at hd2
      simp only [List.cons_append, List.tail_cons, List.head?_append] at hd2
      cases s1 with
      | nil => exact absurd rfl hs1ne
      | cons c1 s2 =>
        simp only [List.head?_cons, Option.or_some] at hd2
        exact hs1head (by simp only [List.head?_cons]; exact hd2)

/-- The `normpath` loop continued from normalized components `NB` over the
relative component list `relpath` builds from `NB` and `NA` recovers `NA`. -/
theorem foldl_relComps (NB NA : List Str)
    (hcleanB : ∀ x ∈ NB, x ≠ [] ∧ x ≠ curdir ∧ x ≠ pardir)
    (hcleanA : ∀ x ∈ NA, x ≠ [] ∧ x ≠ curdir ∧ x ≠ pardir)
    (hslashA : ∀ x ∈ NA, '/' ∉ x) :
    List.foldl (normStep 1) NB
      (splitSlash (if List.replicate (NB.length - commonPrefixLen NB NA) pardir
            ++ NA.drop (commonPrefixLen NB NA) = [] then curdir
          else joinWith ['/'] (List.replicate (NB.length - commonPrefixLen NB NA) pardir
            ++ NA.drop (commonPrefixLen NB NA)))) = NA := by
  by_cases hrl : List.replicate (NB.length - commonPrefixLen NB NA) pardir
      ++ NA.drop (commonPrefixLen NB NA) = []
  · rw [if_pos hrl, show splitSlash curdir = [curdir] from rfl, List.foldl_cons,
      List.foldl_nil, normStep_skip 1 _ (Or.inr rfl)]
    obtain ⟨hrep, hdrop⟩ := List.append_eq_nil.mp hrl
    have h1 := (List.replicate_eq_nil_iff pardir).mp hrep
    have hiA := List.drop_eq_nil_iff.mp hdrop
    have hile := commonPrefixLen_le_left NB NA
    have hileA := commonPrefixLen_le_right NB NA
    have ht := take_commonPrefixLen NB NA
    rwa [List.take_of_length_le (by omega), List.take_of_length_le (by omega)] at ht
  · rw [if_neg hrl]
    rw [splitSlash_joinWith _ hrl ?hslash]
    case hslash =>
      intro x hx
      rcases List.mem_append.mp hx with hx1 | hx1
      · rw [List.eq_of_mem_replicate hx1]
        decide
      · exact hslashA x (List.mem_of_mem_drop hx1)
    rw [List.foldl_append,
      foldl_replicate_pardir _ (by decide) NB
        (fun x hx => (hcleanB x hx).2.2) (Nat.sub_le _ _)]
    have hile := commonPrefixLen_le_left NB NA
    rw [show NB.length - (NB.length - commonPrefixLen NB NA)
        = commonPrefixLen NB NA by omega,
      take_commonPrefixLen NB NA,
      foldl_clean_append _ 1 _ (fun x hx => hcleanA x (List.mem_of_mem_drop hx)),
      List.take_append_drop]

/-- Central correctness property of the link rewrite: for an absolute,
already-normalized target path `p` and an absolute directory `s`, joining
`relpath p s` back onto `s` and normalizing recovers exactly `p`. -/
theorem normpath_posixJoin_relpath (cwd p s : Str)
    (hp1 : ['/'] <+: p) (hp2 : ¬ (['/', '/'] <+: p))
    (hs1 : ['/'] <+: s) (hs2 : ¬ (['/', '/'] <+: s))
    (hnorm : normpath p = p) :
    normpath (posixJoin s (relpath cwd p s)) = p := by
  obtain ⟨hrne, hrabs⟩ := relpath_shape cwd p s
  have hheads := posixJoin_heads s (relpath cwd p s) hs1 hs2 hrne hrabs
  have hNC := normComps_posixJoin s (relpath cwd p s) hs1 hrabs
  rw [normpath_abs hheads.1 hheads.2, hNC]
  have hA : absComps cwd p = normComps 1 (splitSlash p) := absComps_eq cwd hp1 hp2
  have hB : absComps cwd s = normComps 1 (splitSlash s) := absComps_eq cwd hs1 hs2
  have hcleanA : ∀ x ∈ normComps 1 (splitSlash p),
      x ≠ [] ∧ x ≠ curdir ∧ x ≠ pardir := fun x hx =>
    (normComps_invariant (fun _ => True) (splitSlash p) 1 (by decide) []
      (by simp) (fun _ _ => trivial) x hx).1
  have hcleanB : ∀ x ∈ normComps 1 (splitSlash s),
      x ≠ [] ∧ x ≠ curdir ∧ x ≠ pardir := fun x hx =>
    (normComps_invariant (fun _ => True) (splitSlash s) 1 (by decide) []
      (by simp) (fun _ _ => trivial) x hx).1
  have hslashA : ∀ x ∈ normComps 1 (splitSlash p), '/' ∉ x := fun x hx =>
    (normComps_invariant (fun y => '/' ∉ y) (splitSlash p) 1 (by decide) []
      (by simp) (not_slash_of_mem_splitSlash p) x hx).2
  have hfinal : p = '/' :: joinWith ['/'] (normComps 1 (splitSlash p)) := by
    rw [← normpath_abs hp1 hp2, hnorm]
  have hrel : relpath cwd p s
      = if List.replicate ((absComps cwd s).length
            - commonPrefixLen (absComps cwd s) (absComps cwd p)) pardir
          ++ (absComps cwd p).drop
            (commonPrefixLen (absComps cwd s) (absComps cwd p)) = [] then curdir
        else joinWith ['/'] (List.replicate ((absComps cwd s).length
            - commonPrefixLen (absComps cwd s) (absComps cwd p)) pardir
          ++ (absComps cwd p).drop
            (commonPrefixLen (absComps cwd s) (absComps cwd p))) := rfl
  rw [hrel, hA, hB,
    foldl_relComps (normComps 1 (splitSlash s)) (normComps 1 (splitSlash p))
      hcleanB hcleanA hslashA, ← hfinal]

/-! ## Lemmas about LinkFixer -/

theorem applyOnce_of_noChange {cwd topdir subdir link : Str}
    (h : relativelinks_handlelink cwd topdir subdir link = .noChange) :
    applyOnce cwd topdir subdir link = link := by
  unfold applyOnce
  rw [h]

theorem applyOnce_of_rewritten {cwd topdir subdir link t : Str}
    (h : relativelinks_handlelink cwd topdir subdir link = .rewritten t) :
    applyOnce cwd topdir subdir link = t := by
  unfold applyOnce
  rw [h]

theorem handlelink_cons (cwd topdir subdir : Str) (c : Char) (rest : Str) :
    relativelinks_handlelink cwd topdir subdir (c :: rest)
      = if c ≠ '/' ∨ topdir <+: (c :: rest) then .noChange
        else .rewritten (relpath cwd (topdir ++ c :: rest) subdir) := rfl

/-- The two no-change guards of `relativelinks_handlelink`. -/
theorem handlelink_noChange (cwd topdir subdir : Str) {link : Str}
    (h0 : link ≠ []) (h : ¬ (['/'] <+: link) ∨ topdir <+: link) :
    relativelinks_handlelink cwd topdir subdir link = .noChange := by
  cases link with
  | nil => exact absurd rfl h0
  | cons c rest =>
    rw [handlelink_cons, if_pos]
    rcases h with h | h
    · exact Or.inl fun hc => h (single_pref_iff.mpr (by rw [hc]; rfl))
    · exact Or.inr h

/-- The rewrite branch of `relativelinks_handlelink`. -/
theorem handlelink_rewrites (cwd topdir subdir : Str) {link : Str}
    (h2 : ['/'] <+: link) (h3 : ¬ (topdir <+: link)) :
    relativelinks_handlelink cwd topdir subdir link
      = .rewritten (relpath cwd (topdir ++ link) subdir) := by
  obtain ⟨t1, ht1⟩ := h2
  have hlt : link = '/' :: t1 := ht1.symm
  subst hlt
  rw [handlelink_cons, if_neg]
  intro hor
  rcases hor with hh | hh
  · exact hh rfl
  · exact h3 hh

/-- A single visit by the link fixer is idempotent on any symlink with a
nonempty target: a rewritten target is relative, so a second visit takes the
no-change branch. -/
theorem applyOnce_idem (cwd topdir subdir link : Str) (h0 : link ≠ []) :
    applyOnce cwd topdir subdir (applyOnce cwd topdir subdir link)
      = applyOnce cwd topdir subdir link := by
  cases link with
  | nil => exact absurd rfl h0
  | cons c rest =>
    by_cases hg : c ≠ '/' ∨ topdir <+: (c :: rest)
    · have hnc : relativelinks_handlelink cwd topdir subdir (c :: rest) = .noChange := by
        rw [handlelink_cons, if_pos hg]
      rw [applyOnce_of_noChange hnc, applyOnce_of_noChange hnc]
    · push_neg at hg
      have hre : relativelinks_handlelink cwd topdir subdir (c :: rest)
          = .rewritten (relpath cwd (topdir ++ c :: rest) subdir) := by
        rw [handlelink_cons, if_neg]
        intro hor
        rcases hor with h1 | h1
        · exact h1 hg.1
        · exact hg.2 h1
      rw [applyOnce_of_rewritten hre]
      obtain ⟨hne, habs⟩ := relpath_shape cwd (topdir ++ c :: rest) subdir
      exact applyOnce_of_noChange (handlelink_noChange cwd topdir subdir hne (Or.inl habs))

theorem entry_eta (e : Entry) : { e with target := e.target } = e := rfl

/-! ## Lemmas about PkgConfigLinker -/

theorem lookupEntry_removeEntry (es : List (Str × Str)) (p : Str) :
    lookupEntry (removeEntry es p) p = none := by
  induction es with
  | nil => rfl
  | cons e rest ih =>
    obtain ⟨q, t⟩ := e
    unfold removeEntry
    by_cases h : q = p
    · rw [if_pos h]
      exact ih
    · rw [if_neg h]
      unfold lookupEntry
      rw [if_neg h]
      exact ih

theorem os_symlink_denied {fs : FS} {target l : Str} (h : l ∈ fs.denied) :
    os_symlink fs target l = .error .other := by
  unfold os_symlink
  rw [if_pos h]

theorem os_symlink_exists {fs : FS} {target l : Str} (h1 : l ∉ fs.denied)
    (h2 : (lookupEntry fs.entries l).isSome) :
    os_symlink fs target l = .error .eexist := by
  unfold os_symlink
  rw [if_neg h1, if_pos h2]

theorem os_symlink_free (fs : FS) {target l : Str} (h1 : l ∉ fs.denied)
    (h2 : ¬ (lookupEntry fs.entries l).isSome) :
    os_symlink fs target l = .ok { fs with entries := (l, target) :: fs.entries } := by
  unfold os_symlink
  rw [if_neg h1, if_neg h2]

theorem symlink_force_ok_fresh {fs : FS} {target l : Str} (h1 : l ∉ fs.denied)
    (h2 : ¬ (lookupEntry fs.entries l).isSome) :
    symlink_force fs target l
      = .ok ({ fs with entries := (l, target) :: fs.entries }, false) := by
  unfold symlink_force
  rw [os_symlink_free fs h1 h2]

theorem symlink_force_replaces {fs : FS} {target l : Str} (h1 : l ∉ fs.denied)
    (h2 : (lookupEntry fs.entries l).isSome) :
    symlink_force fs target l
      = .ok ({ fs with entries := (l, target) :: removeEntry fs.entries l }, false) := by
  have hrem : os_symlink (os_remove fs l) target l
      = .ok { os_remove fs l with
              entries := (l, target) :: (os_remove fs l).entries } :=
    os_symlink_free (os_remove fs l) h1
      (by
        rw [show (os_remove fs l).entries = removeEntry fs.entries l from rfl,
          lookupEntry_removeEntry]
        simp)
  unfold symlink_force
  rw [os_symlink_exists h1 h2]
  show (match os_symlink (os_remove fs l) target l with
    | .ok fs2 => Except.ok (fs2, false)
    | .error e2 => Except.error e2) = _
  rw [hrem]
  rfl

theorem symlink_force_denied {fs : FS} {target l : Str} (h : l ∈ fs.denied) :
    symlink_force fs target l = .ok (fs, true) := by
  unfold symlink_force
  rw [os_symlink_denied h]

/-- In the model, `symlink_force` lives up to its guard: it never lets an
exception escape. -/
theorem symlink_force_total (fs : FS) (target l : Str) :
    ∃ r, symlink_force fs target l = .ok r := by
  by_cases h1 : l ∈ fs.denied
  · exact ⟨(fs, true), symlink_force_denied h1⟩
  · by_cases h2 : (lookupEntry fs.entries l).isSome
    · exact ⟨_, symlink_force_replaces h1 h2⟩
    · exact ⟨_, symlink_force_ok_fresh h1 h2⟩

/-- Whenever creation at `l` is not denied, `symlink_force` ends with the
link present and pointing at `target`, whether or not an entry was there. -/
theorem symlink_force_sets {fs : FS} (target : Str) {l : Str}
    (hden : l ∉ fs.denied) :
    ∃ fs2, symlink_force fs target l = .ok (fs2, false)
      ∧ FS.lookup fs2 l = some target := by
  by_cases h2 : (lookupEntry fs.entries l).isSome
  · refine ⟨_, symlink_force_replaces hden h2, ?_⟩
    show lookupEntry ((l, target) :: removeEntry fs.entries l) l = some target
    simp [lookupEntry]
  · refine ⟨_, symlink_force_ok_fresh hden h2, ?_⟩
    show lookupEntry ((l, target) :: fs.entries) l = some target
    simp [lookupEntry]

/-- The pkg-config batch always runs to completion in the model. -/
theorem process_pkgconfig_total (cwd path : Str) :
    ∀ (files : List (Str × Str)) (fs : FS),
      ∃ fs2, process_pkgconfig_files cwd path fs files = .ok fs2 := by
  intro files
  induction files with
  | nil => intro fs; exact ⟨fs, rfl⟩
  | cons e rest ih =>
    intro fs
    obtain ⟨sub, f⟩ := e
    obtain ⟨⟨fs1, b⟩, hr⟩ :=
      symlink_force_total fs (pkg_target f) (pkg_linkname cwd path f)
    obtain ⟨fs2, h2⟩ := ih fs1
    refine ⟨fs2, ?_⟩
    unfold process_pkgconfig_files
    rw [hr]
    exact h2

/-! ## Lemmas about LdScriptPatcher -/

theorem pyReplaceGo_succ_cons (old new : Str) (fuel : Nat) (c : Char) (rest : Str) :
    pyReplaceGo old new (fuel + 1) (c :: rest)
      = if old ≠ [] ∧ old <+: (c :: rest) then
          new ++ pyReplaceGo old new fuel (List.drop old.length (c :: rest))
        else c :: pyReplaceGo old new fuel rest := rfl

theorem splitOnSeqGo_succ_cons (sep : Str) (fuel : Nat) (c : Char) (rest : Str) :
    splitOnSeqGo sep (fuel + 1) (c :: rest)
      = if sep ≠ [] ∧ sep <+: (c :: rest) then
          [] :: splitOnSeqGo sep fuel (List.drop sep.length (c :: rest))
        else
          match splitOnSeqGo sep fuel rest with
          | [] => [[c]]
          | p :: ps => (c :: p) :: ps := rfl

theorem splitOnSeqGo_ne_nil (sep : Str) :
    ∀ (fuel : Nat) (s : Str), splitOnSeqGo sep fuel s ≠ []
  | _, [] => by simp [splitOnSeqGo]
  | 0, _ :: _ => by simp [splitOnSeqGo]
  | fuel + 1, c :: rest => by
    rw [splitOnSeqGo_succ_cons]
    split
    · simp
    · cases h : splitOnSeqGo sep fuel rest <;> simp

theorem joinWith_nilcons (sep : Str) (l : List Str) (h : l ≠ []) :
    joinWith sep ([] :: l) = sep ++ joinWith sep l := by
  cases l with
  | nil => exact absurd rfl h
  | cons p ps => simp [joinWith]

/-- `str.replace` equals splitting at every occurrence and joining the
pieces with the replacement. -/
theorem pyReplaceGo_eq_joinWith (old new : Str) :
    ∀ (fuel : Nat) (s : Str), s.length ≤ fuel →
      pyReplaceGo old new fuel s = joinWith new (splitOnSeqGo old fuel s) := by
  intro fuel
  induction fuel with
  | zero =>
    intro s hs
    have h0 : s = [] := by
      cases s with
      | nil => rfl
      | cons c rest => simp at hs
    subst h0
    rfl
  | succ fuel ih =>
    intro s hs
    cases s with
    | nil => rfl
    | cons c rest =>
      have hrest : rest.length ≤ fuel := by
        simp only [List.length_cons] at hs
        omega
      by_cases hcond : old ≠ [] ∧ old <+: (c :: rest)
      · have hlen : (List.drop old.length (c :: rest)).length ≤ fuel := by
          rw [List.length_drop]
          have hpos : 0 < old.length := List.length_pos.mpr hcond.1
          simp only [List.length_cons]
          omega
        rw [pyReplaceGo_succ_cons, splitOnSeqGo_succ_cons, if_pos hcond, if_pos hcond,
          joinWith_nilcons new _ (splitOnSeqGo_ne_nil old fuel _), ih _ hlen]
      · rw [pyReplaceGo_succ_cons, splitOnSeqGo_succ_cons, if_neg hcond, if_neg hcond,
          ih rest hrest]
        cases h : splitOnSeqGo old fuel rest with
        | nil => exact absurd h (splitOnSeqGo_ne_nil old fuel rest)
        | cons p ps =>
          rw [joinWith_cons_cons]

theorem isInfix_of_cons {sep : Str} {c : Char} {rest : Str}
    (h : sep <:+: (c :: rest)) (hp : ¬ (sep <+: (c :: rest))) : sep <:+: rest := by
  obtain ⟨u, v, huv⟩ := h
  cases u with
  | nil => exact absurd ⟨v, by simpa using huv⟩ hp
  | cons a u1 =>
    rw [List.cons_append] at huv
    injection huv with h1 h2
    exact ⟨u1, v, h2⟩

/-- A string containing the separator splits into at least two pieces. -/
theorem splitOnSeq_two_of_infix (sep : Str) (hsep : sep ≠ []) :
    ∀ (fuel : Nat) (s : Str), s.length ≤ fuel → sep <:+: s →
      2 ≤ (splitOnSeqGo sep fuel s).length := by
  intro fuel
  induction fuel with
  | zero =>
    intro s hs hinf
    have h0 : s = [] := by
      cases s with
      | nil => rfl
      | cons c rest => simp at hs
    subst h0
    obtain ⟨u, v, huv⟩ := hinf
    obtain ⟨huv1, -⟩ := List.append_eq_nil.mp huv
    exact absurd (List.append_eq_nil.mp huv1).2 hsep
  | succ fuel ih =>
    intro s hs hinf
    cases s with
    | nil =>
      obtain ⟨u, v, huv⟩ := hinf
      obtain ⟨huv1, -⟩ := List.append_eq_nil.mp huv
      exact absurd (List.append_eq_nil.mp huv1).2 hsep
    | cons c rest =>
      have hrest : rest.length ≤ fuel := by
        simp only [List.length_cons] at hs
        omega
      by_cases hpre : sep <+: (c :: rest)
      · rw [splitOnSeqGo_succ_cons, if_pos ⟨hsep, hpre⟩]
        cases h : splitOnSeqGo sep fuel (List.drop sep.length (c :: rest)) with
        | nil => exact absurd h (splitOnSeqGo_ne_nil sep fuel _)
        | cons p ps => simp
      · have hinf2 : sep <:+: rest := isInfix_of_cons hinf hpre
        rw [splitOnSeqGo_succ_cons, if_neg (fun hh => hpre hh.2)]
        cases h : splitOnSeqGo sep fuel rest with
        | nil => exact absurd h (splitOnSeqGo_ne_nil sep fuel rest)
        | cons p ps =>
          have h2 := ih rest hrest hinf2
          rw [h] at h2
          simp only [List.length_cons] at h2 ⊢
          omega

/-! ## Claim theorems -/

/-- C1: for every absolute link target (starting with `/`, not already
prefixed by the rootfs root) and every containing directory under the root
(with a single leading slash, the target path being in normal form), the
link rewrite fires, and the relative target it produces, joined with the
containing directory and lexically normalized, equals exactly
`rootAbs ++ linkTarget`. -/
theorem claim_C1_rewrite_resolves (cwd rootAbs linkTarget containingDir : Str)
    (habs : ['/'] <+: rootAbs)
    (htgt : ['/'] <+: linkTarget)
    (hnp : ¬ (rootAbs <+: linkTarget))
    (hunder : rootAbs <+: containingDir)
    (hdir : ¬ (['/', '/'] <+: containingDir))
    (hnf : normpath (rootAbs ++ linkTarget) = rootAbs ++ linkTarget) :
    relativelinks_handlelink cwd rootAbs containingDir linkTarget
        = .rewritten (relpath cwd (rootAbs ++ linkTarget) containingDir)
      ∧ normpath (posixJoin containingDir
          (relpath cwd (rootAbs ++ linkTarget) containingDir))
        = rootAbs ++ linkTarget := by
  refine ⟨handlelink_rewrites cwd rootAbs containingDir htgt hnp, ?_⟩
  have hroot_ne : rootAbs ≠ ['/'] := fun h => hnp (by rw [h]; exact htgt)
  have hp1 : ['/'] <+: rootAbs ++ linkTarget :=
    habs.trans (List.prefix_append rootAbs linkTarget)
  have hs1 : ['/'] <+: containingDir := habs.trans hunder
  have hp2 : ¬ (['/', '/'] <+: rootAbs ++ linkTarget) := by
    intro hd
    obtain ⟨hd1, hd2⟩ := dslash_iff.mp hd
    obtain ⟨r1, hr1⟩ := habs
    have hrC : rootAbs = '/' :: r1 := hr1.symm
    rw [hrC] at hd2
    simp only [List.cons_append, List.tail_cons, List.head?_append] at hd2
    cases hr1h : r1.head? with
    | some c =>
      rw [hr1h] at hd2
      simp only [Option.or_some, Option.some.injEq] at hd2
      have hdr : ['/', '/'] <+: rootAbs := by
        apply dslash_iff.mpr
        refine ⟨by rw [hrC]; rfl, ?_⟩
        rw [hrC]
        show r1.head? = some '/'
        rw [hr1h, hd2]
      exact hdir (hdr.trans hunder)
    | none =>
      have hnil : r1 = [] := List.head?_eq_none_iff.mp hr1h
      exact hroot_ne (by rw [hrC, hnil])
  exact normpath_posixJoin_relpath cwd (rootAbs ++ linkTarget) containingDir
    hp1 hp2 hs1 hdir hnf

/-- Witness for C1 at the specification's own example: target `/lib/foo.so`,
root `/work/sysroot`, containing directory `/work/sysroot/usr/bin`. -/
theorem claim_C1_witness :
    relativelinks_handlelink "/".data "/work/sysroot".data
        "/work/sysroot/usr/bin".data "/lib/foo.so".data
        = .rewritten (relpath "/".data
            ("/work/sysroot".data ++ "/lib/foo.so".data)
            "/work/sysroot/usr/bin".data)
      ∧ normpath (posixJoin "/work/sysroot/usr/bin".data
          (relpath "/".data ("/work/sysroot".data ++ "/lib/foo.so".data)
            "/work/sysroot/usr/bin".data))
        = "/work/sysroot".data ++ "/lib/foo.so".data :=
  claim_C1_rewrite_resolves "/".data "/work/sysroot".data "/lib/foo.so".data
    "/work/sysroot/usr/bin".data (by decide) (by decide) (by decide) (by decide)
    (by decide) (by decide)

/-- C2: running the link fixer twice over the same tree with the same root
path equals running it once — a rewritten link is relative and is left
unchanged by the second pass, and a link left unchanged once is left
unchanged again. -/
theorem claim_C2_linkfixer_idempotent (cwd path : Str) (fs : List Entry)
    (h : ∀ e ∈ fs, e.target ≠ []) :
    process_relativelinks cwd path (process_relativelinks cwd path fs)
      = process_relativelinks cwd path fs := by
  simp only [process_relativelinks]
  rw [List.map_map]
  apply List.map_congr_left
  intro e he
  obtain ⟨s, n, t⟩ := e
  dsimp only [Function.comp_apply]
  by_cases hex : excludedDir s
  · rw [if_pos hex, if_pos hex]
  · rw [if_neg hex]
    dsimp only
    rw [if_neg hex,
      applyOnce_idem cwd (abspath cwd path) s t (h ⟨s, n, t⟩ he)]

/-- Witness for C2 on a one-link tree whose link gets rewritten. -/
theorem claim_C2_witness :
    process_relativelinks "/".data "/work/sysroot".data
        (process_relativelinks "/".data "/work/sysroot".data
          [⟨"/work/sysroot/usr/bin".data, "x".data, "/lib/foo.so".data⟩])
      = process_relativelinks "/".data "/work/sysroot".data
          [⟨"/work/sysroot/usr/bin".data, "x".data, "/lib/foo.so".data⟩] :=
  claim_C2_linkfixer_idempotent "/".data "/work/sysroot".data
    [⟨"/work/sysroot/usr/bin".data, "x".data, "/lib/foo.so".data⟩] (by decide)

/-- C4: a symlink sitting in a directory whose path contains `/proc` or
`/dev` (any case, as a substring) is never modified by
`process_relativelinks`, whatever its target is. -/
theorem claim_C4_exclusion_frame (cwd path : Str) (fs : List Entry) (i : Nat)
    (h : i < fs.length) (hex : excludedDir (fs.get ⟨i, h⟩).subdir) :
    (process_relativelinks cwd path fs)[i]? = some (fs.get ⟨i, h⟩) := by
  simp only [List.get_eq_getElem] at hex
  simp only [process_relativelinks, List.getElem?_map, List.get_eq_getElem]
  rw [List.getElem?_eq_getElem h]
  simp only [Option.map_some']
  rw [if_pos hex]

/-- Witness for C4: a link under `/proc` with an absolute target that would
otherwise qualify for rewriting is untouched. -/
theorem claim_C4_witness :
    (process_relativelinks "/".data "/work/sysroot".data
        [⟨"/work/sysroot/proc/1".data, "x".data, "/lib/foo.so".data⟩])[0]?
      = some (([⟨"/work/sysroot/proc/1".data, "x".data, "/lib/foo.so".data⟩] :
          List Entry).get ⟨0, by decide⟩) :=
  claim_C4_exclusion_frame "/".data "/work/sysroot".data
    [⟨"/work/sysroot/proc/1".data, "x".data, "/lib/foo.so".data⟩] 0
    (by decide) (by decide)

/-- C5: a symlink whose (nonempty) target does not start with `/`, or whose
target already starts with the computed rootfs root, is on disk after
`process_relativelinks` exactly what it was before. -/
theorem claim_C5_no_change_frame (cwd path : Str) (fs : List Entry) (i : Nat)
    (h : i < fs.length) (h0 : (fs.get ⟨i, h⟩).target ≠ [])
    (hg : ¬ (['/'] <+: (fs.get ⟨i, h⟩).target)
        ∨ abspath cwd path <+: (fs.get ⟨i, h⟩).target) :
    (process_relativelinks cwd path fs)[i]? = some (fs.get ⟨i, h⟩) := by
  simp only [List.get_eq_getElem] at h0 hg
  simp only [process_relativelinks, List.getElem?_map, List.get_eq_getElem]
  rw [List.getElem?_eq_getElem h]
  simp only [Option.map_some']
  by_cases hex : excludedDir fs[i].subdir
  · rw [if_pos hex]
  · rw [if_neg hex,
      applyOnce_of_noChange (handlelink_noChange cwd (abspath cwd path)
        fs[i].subdir h0 hg)]

/-- Witness for C5 at the specification's two examples: an already-relative
target `../../lib/foo.so` and an already-rooted target
`/work/sysroot/lib/foo.so`. -/
theorem claim_C5_witness :
    ((process_relativelinks "/".data "/work/sysroot".data
        [⟨"/work/sysroot/usr/bin".data, "a".data, "../../lib/foo.so".data⟩])[0]?
      = some (([⟨"/work/sysroot/usr/bin".data, "a".data,
          "../../lib/foo.so".data⟩] : List Entry).get ⟨0, by decide⟩))
    ∧ ((process_relativelinks "/".data "/work/sysroot".data
        [⟨"/work/sysroot/usr/bin".data, "a".data,
          "/work/sysroot/lib/foo.so".data⟩])[0]?
      = some (([⟨"/work/sysroot/usr/bin".data, "a".data,
          "/work/sysroot/lib/foo.so".data⟩] : List Entry).get ⟨0, by decide⟩)) :=
  ⟨claim_C5_no_change_frame "/".data "/work/sysroot".data
      [⟨"/work/sysroot/usr/bin".data, "a".data, "../../lib/foo.so".data⟩] 0
      (by decide) (by decide) (Or.inl (by decide)),
   claim_C5_no_change_frame "/".data "/work/sysroot".data
      [⟨"/work/sysroot/usr/bin".data, "a".data, "/work/sysroot/lib/foo.so".data⟩] 0
      (by decide) (by decide) (Or.inr (by decide))⟩

/-- C9: `relativelinks_handlelink` is total on nonempty targets — it returns
no-change or a rewrite — while on the empty target the unguarded `link[0]`
indexing fails instead of treating the link as a no-op. -/
theorem claim_C9_empty_target_fails (cwd topdir subdir link : Str) :
    (link ≠ [] → relativelinks_handlelink cwd topdir subdir link ≠ .indexError)
      ∧ relativelinks_handlelink cwd topdir subdir [] = .indexError := by
  constructor
  · intro h0
    cases link with
    | nil => exact absurd rfl h0
    | cons c rest =>
      rw [handlelink_cons]
      split <;> simp
  · rfl

/-- Witness for C9 at a one-character target and at the empty target. -/
theorem claim_C9_witness :
    relativelinks_handlelink "/".data "/r".data "/r/a".data "x".data
        ≠ .indexError
      ∧ relativelinks_handlelink "/".data "/r".data "/r/a".data []
        = .indexError :=
  ⟨(claim_C9_empty_target_fails "/".data "/r".data "/r/a".data "x".data).1
      (by decide),
   (claim_C9_empty_target_fails "/".data "/r".data "/r/a".data []).2⟩

/-- C3: the linker-script patch is NOT idempotent for a fixed root path —
`str.replace` matches the `GROUP (` that the first run just wrote and
prepends the library path again.  Evaluation at the failing input
(root `/work/sysroot`, content `GROUP ( /x.a )`): the second run's output
differs from the first run's. -/
theorem claim_C3_ld_patch_not_idempotent :
    fix_process_ld_scripts "/".data "/work/sysroot".data
        (fix_process_ld_scripts "/".data "/work/sysroot".data
          "GROUP ( /x.a )".data)
      ≠ fix_process_ld_scripts "/".data "/work/sysroot".data
          "GROUP ( /x.a )".data := by
  decide

/-- C6 counterexample: on a file with two `GROUP (` occurrences the patch
rewrites BOTH, not only the first — the output is not the claimed
first-occurrence-only rewrite. -/
theorem claim_C6_counterexample :
    fix_process_ld_scripts "/".data "/r".data
        "GROUP ( a.a ) GROUP ( b.a )".data
      ≠ "GROUP (/r/usr/lib/arm-linux-gnueabihf/ a.a ) GROUP ( b.a )".data
    ∧ fix_process_ld_scripts "/".data "/r".data
        "GROUP ( a.a ) GROUP ( b.a )".data
      = "GROUP (/r/usr/lib/arm-linux-gnueabihf/ a.a ) GROUP (/r/usr/lib/arm-linux-gnueabihf/ b.a )".data := by
  constructor
  · decide
  · decide

/-- C6 (amended): in one run over a linker-script content containing the
anchor `GROUP (`, EVERY occurrence of the anchor is rewritten, the library
path being inserted after each one: the output is exactly the pieces of the
content between occurrences rejoined with `GROUP (` followed by the library
path, and there are at least two such pieces. -/
theorem claim_C6_every_occurrence (cwd path content : Str)
    (h : GROUP_anchor <:+: content) :
    fix_process_ld_scripts cwd path content
        = joinWith (GROUP_anchor ++ ld_library_path cwd path)
            (splitOnSeq GROUP_anchor content)
      ∧ 2 ≤ (splitOnSeq GROUP_anchor content).length := by
  constructor
  · show inplace_change content GROUP_anchor
        (GROUP_anchor ++ ld_library_path cwd path) = _
    unfold inplace_change
    rw [if_neg (not_not_intro h)]
    unfold pyReplace splitOnSeq
    exact pyReplaceGo_eq_joinWith GROUP_anchor _ content.length content le_rfl
  · exact splitOnSeq_two_of_infix GROUP_anchor (by decide) content.length
      content le_rfl h

/-- Witness for the amended C6 on a single-anchor file. -/
theorem claim_C6_witness :
    fix_process_ld_scripts "/".data "/r".data "GROUP ( x )".data
        = joinWith (GROUP_anchor ++ ld_library_path "/".data "/r".data)
            (splitOnSeq GROUP_anchor "GROUP ( x )".data)
      ∧ 2 ≤ (splitOnSeq GROUP_anchor "GROUP ( x )".data).length :=
  claim_C6_every_occurrence "/".data "/r".data "GROUP ( x )".data (by decide)

/-- C7: `symlink_force` has force semantics — an existing entry at the link
path (not itself creation-denied) is removed and the link recreated with the
requested target, without raising; any other creation failure is reported
(`true` flag) and swallowed; and the pkg-config batch always processes every
file, never aborting. -/
theorem claim_C7_force_semantics (cwd path : Str) (fs : FS)
    (target link_name : Str) :
    ((FS.lookup fs link_name).isSome → link_name ∉ fs.denied →
        ∃ fs2, symlink_force fs target link_name = .ok (fs2, false)
          ∧ FS.lookup fs2 link_name = some target)
      ∧ (link_name ∈ fs.denied →
          symlink_force fs target link_name = .ok (fs, true))
      ∧ ∀ files : List (Str × Str),
          ∃ fs2, process_pkgconfig_files cwd path fs files = .ok fs2 :=
  ⟨fun _ hden => symlink_force_sets target hden,
   fun hmem => symlink_force_denied hmem,
   fun files => process_pkgconfig_total cwd path files fs⟩

/-- Witness for C7: a stale entry at `p` is force-replaced; a denied path
`q` is reported without aborting; a batch on an empty store completes. -/
theorem claim_C7_witness :
    (∃ fs2, symlink_force ⟨[("p".data, "old".data)], []⟩ "new".data "p".data
        = .ok (fs2, false) ∧ FS.lookup fs2 "p".data = some "new".data)
      ∧ symlink_force ⟨[], ["q".data]⟩ "new".data "q".data
          = .ok (⟨[], ["q".data]⟩, true)
      ∧ ∀ files : List (Str × Str),
          ∃ fs2, process_pkgconfig_files "/".data "/r".data ⟨[], []⟩ files
            = .ok fs2 :=
  ⟨(claim_C7_force_semantics "/".data "/r".data ⟨[("p".data, "old".data)], []⟩
      "new".data "p".data).1 (by decide) (by decide),
   (claim_C7_force_semantics "/".data "/r".data ⟨[], ["q".data]⟩ "new".data
      "q".data).2.1 (by decide),
   (claim_C7_force_semantics "/".data "/r".data ⟨[], []⟩ "t".data "l".data).2.2⟩

/-- C8: the mirror step's source argument is NOT the brace-expanded include
list — the doubled braces of the f-string make the join expression literal
text, so for user `pi@raspberrypi` the option differs from the claimed
`pi@raspberrypi:/\x7betc/,lib/,usr/,opt/vc\x7d` and does not even mention
the include directory `etc/`. -/
theorem claim_C8_include_option_literal :
    rsync_get_include_option "pi@raspberrypi".data
        ≠ rsync_include_option_claimed "pi@raspberrypi".data
      ∧ ¬ ("etc/".data <:+: rsync_get_include_option "pi@raspberrypi".data)
      ∧ "etc/".data <:+: rsync_include_option_claimed "pi@raspberrypi".data := by
  refine ⟨by decide, by decide, by decide⟩

/-- C10: the pkg-config linker is insensitive to which walked subdirectory a
file was found in — only basenames matter — and a file in an arbitrarily
nested subdirectory still yields a flat link
`usr/share/pkgconfig/<basename>` pointing at
`../../lib/arm-linux-gnueabihf/pkgconfig/<basename>`. -/
theorem claim_C10_recursive_flat (cwd path : Str) :
    (∀ (fs : FS) (entries1 entries2 : List (Str × Str)),
        entries1.map Prod.snd = entries2.map Prod.snd →
        process_pkgconfig_files cwd path fs entries1
          = process_pkgconfig_files cwd path fs entries2)
      ∧ ∀ (fs : FS) (sub f : Str),
          pkg_linkname cwd path f ∉ fs.denied →
          ∃ fs2, process_pkgconfig_files cwd path fs [(sub, f)] = .ok fs2
            ∧ FS.lookup fs2 (pkg_linkname cwd path f) = some (pkg_target f) := by
  constructor
  · intro fs e1 e2 hmap
    induction e1 generalizing fs e2 with
    | nil =>
      cases e2 with
      | nil => rfl
      | cons y ys => simp at hmap
    | cons x xs ih =>
      cases e2 with
      | nil => simp at hmap
      | cons y ys =>
        obtain ⟨x1, x2⟩ := x
        obtain ⟨y1, y2⟩ := y
        simp only [List.map_cons, List.cons.injEq] at hmap
        unfold process_pkgconfig_files
        rw [hmap.1]
        cases hsf : symlink_force fs (pkg_target y2) (pkg_linkname cwd path y2) with
        | ok r =>
          obtain ⟨fs1, b⟩ := r
          show process_pkgconfig_files cwd path fs1 xs
            = process_pkgconfig_files cwd path fs1 ys
          exact ih fs1 ys hmap.2
        | error e => rfl
  · intro fs sub f hden
    obtain ⟨fs2, hok, hlook⟩ := symlink_force_sets (pkg_target f) hden
    refine ⟨fs2, ?_, hlook⟩
    unfold process_pkgconfig_files
    rw [hok]
    rfl

/-- Witness for C10: a file found in the nested subdirectory `deep/nested`
is processed exactly like one found at top level, and produces the flat
link with the flat target. -/
theorem claim_C10_witness :
    (process_pkgconfig_files "/".data "/r".data ⟨[], []⟩
        [("deep/nested".data, "x.pc".data)]
      = process_pkgconfig_files "/".data "/r".data ⟨[], []⟩
        [("top".data, "x.pc".data)])
    ∧ ∃ fs2, process_pkgconfig_files "/".data "/r".data ⟨[], []⟩
          [("deep/nested".data, "x.pc".data)] = .ok fs2
        ∧ FS.lookup fs2 (pkg_linkname "/".data "/r".data "x.pc".data)
          = some (pkg_target "x.pc".data) :=
  ⟨(claim_C10_recursive_flat "/".data "/r".data).1 ⟨[], []⟩
      [("deep/nested".data, "x.pc".data)] [("top".data, "x.pc".data)]
      (by decide),
   (claim_C10_recursive_flat "/".data "/r".data).2 ⟨[], []⟩ "deep/nested".data
      "x.pc".data (by decide)⟩

end RpiRootfs
